import Mathlib

/-!
Shallow embedding of `runtime_tracker.py` (OS-Task-Manager-CPU-Scheduling-Simulator).

Time values (`time.time()`, `create_time`, durations) are modelled as rationals,
passed explicitly as a `now` parameter where the Python calls `time.time()`.
The insertion-ordered Python `dict` backing `self._active` is modelled as an
insertion-ordered association list, and the `deque(maxlen=...)` backing
`self._completed` as a list with an explicit capacity-bounded append.
The psutil liveness probe in `mark_missing` (NoSuchProcess / AccessDenied /
a successful `create_time()` read) is modelled as an oracle function
`Nat → Liveness` fixed for the duration of one call.
-/

/-- `RuntimeRecord` dataclass of `runtime_tracker.py`. -/
structure RuntimeRecord where
  pid : Nat
  name : String
  create_time : ℚ
  predicted : ℚ
  first_seen : ℚ
  last_seen : ℚ
  actual_duration : Option ℚ := none
  completed_at : Option ℚ := none
deriving DecidableEq, Repr

namespace RuntimeRecord

/-- `RuntimeRecord.elapsed`: actual duration when set, else `max(now - create_time, 0.0)`. -/
def elapsed (r : RuntimeRecord) (now : ℚ) : ℚ :=
  match r.actual_duration with
  | some d => d
  | none => max (now - r.create_time) 0

/-- `RuntimeRecord.status`: `"completed"` when `actual_duration` is set, else `"running"`. -/
def status (r : RuntimeRecord) : String :=
  if r.actual_duration.isSome then "completed" else "running"

end RuntimeRecord

/-- Result of the liveness probe performed by `mark_missing` on one pid:
`psutil.Process(pid).create_time()` succeeding models `stillAlive ct`,
`psutil.NoSuchProcess` models `gone`, `psutil.AccessDenied` models
`indeterminate`. -/
inductive Liveness where
  | stillAlive (create_time : ℚ)
  | gone
  | indeterminate
deriving DecidableEq, Repr

/-- Insertion-ordered association list modelling the Python `dict` `self._active`. -/
abbrev ActiveMap := List (Nat × RuntimeRecord)

/-- `dict.get(pid)`: the first (and, with distinct keys, only) entry for `k`. -/
def alistGet (m : ActiveMap) (k : Nat) : Option RuntimeRecord :=
  match m with
  | [] => none
  | e :: rest => if e.1 = k then some e.2 else alistGet rest k

/-- `dict[pid] = record`: replace in place when the key is present (the Python
dict keeps the key's insertion position), else append at the end. -/
def alistInsert (m : ActiveMap) (k : Nat) (v : RuntimeRecord) : ActiveMap :=
  if (alistGet m k).isSome then
    m.map (fun e => if e.1 = k then (k, v) else e)
  else
    m ++ [(k, v)]

/-- `dict.pop(pid, None)`'s effect on the mapping: drop the entry for `k`. -/
def alistErase (m : ActiveMap) (k : Nat) : ActiveMap :=
  m.filter (fun e => e.1 ≠ k)

/-- `list(dict.keys())`: keys in insertion order. -/
def alistKeys (m : ActiveMap) : List Nat :=
  m.map Prod.fst

/-- Append on a `deque` of maximum length `cap`: append at the right, evicting
from the left when the capacity is exceeded. -/
def dequeAppend (cap : Nat) (xs : List RuntimeRecord) (x : RuntimeRecord) : List RuntimeRecord :=
  (xs ++ [x]).drop (xs.length + 1 - cap)

/-- `ProcessRuntimeTracker`: `completed_max` fixed at construction, active map
and bounded completed deque. -/
structure ProcessRuntimeTracker where
  completed_max : Nat
  active : ActiveMap
  completed : List RuntimeRecord
deriving DecidableEq, Repr

namespace ProcessRuntimeTracker

/-- `ProcessRuntimeTracker.__init__(completed_max=20)`. -/
def init (completed_max : Nat := 20) : ProcessRuntimeTracker :=
  { completed_max := completed_max, active := [], completed := [] }

/-- `ProcessRuntimeTracker._replace_record`. -/
def replace_record (t : ProcessRuntimeTracker) (pid : Nat) (name : String)
    (create_time predicted now : ℚ) : RuntimeRecord × ProcessRuntimeTracker :=
  let record : RuntimeRecord :=
    { pid := pid, name := name, create_time := create_time, predicted := predicted,
      first_seen := now, last_seen := now }
  (record, { t with active := alistInsert t.active pid record })

/-- `ProcessRuntimeTracker.update_running` (the Store's `observe`), with the
`time.time()` call passed in as `now`. -/
def update_running (t : ProcessRuntimeTracker) (pid : Nat) (name : String)
    (create_time predicted now : ℚ) : RuntimeRecord × ProcessRuntimeTracker :=
  match alistGet t.active pid with
  | none => t.replace_record pid name create_time predicted now
  | some record =>
    if |record.create_time - create_time| > 1 then
      t.replace_record pid name create_time predicted now
    else
      let record1 := { record with name := name, predicted := predicted, last_seen := now }
      (record1, { t with active := alistInsert t.active pid record1 })

/-- Close decision of `mark_missing` for one missing pid: close on
`NoSuchProcess` (`gone`) or on a live probe whose creation time differs from
the stored one by more than `1.0`; keep on a matching live probe or on
`AccessDenied` (`indeterminate`). -/
def shouldClose (oracle : Nat → Liveness) (pid : Nat) (record : RuntimeRecord) : Bool :=
  match oracle pid with
  | .stillAlive ct => |ct - record.create_time| > 1
  | .gone => true
  | .indeterminate => false

/-- The record as closed by `mark_missing`: `completed_at = now`,
`actual_duration = max(completed_at - create_time, 0.0)`. -/
def closeRec (record : RuntimeRecord) (now : ℚ) : RuntimeRecord :=
  { record with
    completed_at := some now
    actual_duration := some (max (now - record.create_time) 0) }

/-- One iteration of the loop body of `mark_missing` for a pid taken from the
key snapshot: skip observed pids, skip vanished entries, probe liveness, and on
a close decision pop the record, stamp it and append it to the deque. -/
def markStep (oracle : Nat → Liveness) (active_pids : List Nat) (now : ℚ)
    (t : ProcessRuntimeTracker) (pid : Nat) : ProcessRuntimeTracker :=
  if pid ∈ active_pids then t
  else
    match alistGet t.active pid with
    | none => t
    | some record =>
      if shouldClose oracle pid record then
        { t with
          active := alistErase t.active pid
          completed := dequeAppend t.completed_max t.completed (closeRec record now) }
      else t

/-- `ProcessRuntimeTracker.mark_missing` (the Store's `reconcile`): iterate over
a snapshot of the active keys, with the single `time.time()` call passed as
`now` and the psutil probe passed as `oracle`. -/
def mark_missing (t : ProcessRuntimeTracker) (oracle : Nat → Liveness)
    (active_pids : List Nat) (now : ℚ) : ProcessRuntimeTracker :=
  (alistKeys t.active).foldl (markStep oracle active_pids now) t

/-- `ProcessRuntimeTracker.current_elapsed`, with the implicit `time.time()`
inside `record.elapsed()` passed as `now`. -/
def current_elapsed (t : ProcessRuntimeTracker) (pid : Nat) (now : ℚ) : Option ℚ :=
  match alistGet t.active pid with
  | some record => some (record.elapsed now)
  | none =>
    match t.completed.find? (fun record => record.pid == pid) with
    | some record => record.actual_duration
    | none => none

/-- `ProcessRuntimeTracker.status_for`. -/
def status_for (t : ProcessRuntimeTracker) (pid : Nat) : String :=
  match alistGet t.active pid with
  | some record => record.status
  | none =>
    match t.completed.find? (fun record => record.pid == pid) with
    | some record => record.status
    | none => "unknown"

/-- `ProcessRuntimeTracker.recent_completions`. -/
def recent_completions (t : ProcessRuntimeTracker) : List RuntimeRecord :=
  t.completed

/-- The close decision of one `mark_missing` call, as a predicate on an active
entry: the pid is absent from `active_pids` and the liveness probe says close. -/
def closeCond (oracle : Nat → Liveness) (active_pids : List Nat)
    (e : Nat × RuntimeRecord) : Bool :=
  !(decide (e.1 ∈ active_pids)) && shouldClose oracle e.1 e.2

/-- The records closed by one `mark_missing` call, in the order in which the
key snapshot `ks` is traversed. -/
def closedOf (oracle : Nat → Liveness) (active_pids : List Nat) (now : ℚ)
    (m : ActiveMap) (ks : List Nat) : List RuntimeRecord :=
  ks.filterMap fun k =>
    match alistGet m k with
    | some record =>
      if closeCond oracle active_pids (k, record) then some (closeRec record now) else none
    | none => none

end ProcessRuntimeTracker

open ProcessRuntimeTracker

/-- A sequence of reconciliation cycles: each element carries the liveness
oracle, the observed-pid set and the clock reading of one `mark_missing` call. -/
def applyReconciles (t : ProcessRuntimeTracker)
    (cs : List ((Nat → Liveness) × List Nat × ℚ)) : ProcessRuntimeTracker :=
  cs.foldl (fun t c => t.mark_missing c.1 c.2.1 c.2.2) t

/-- A sequence of `update_running` calls for one pid; each element carries the
name, creation time, prediction and clock reading of one call. -/
def applyObserves (t : ProcessRuntimeTracker) (pid : Nat)
    (cs : List (String × ℚ × ℚ × ℚ)) : ProcessRuntimeTracker :=
  cs.foldl (fun t c => (t.update_running pid c.1 c.2.1 c.2.2.1 c.2.2.2).2) t

/-- The in-place update `update_running` performs on an existing record when
the creation time is within tolerance: overwrite name and prediction, bump
`last_seen`. -/
def updRec (r : RuntimeRecord) (c : String × ℚ × ℚ × ℚ) : RuntimeRecord :=
  { r with name := c.1, predicted := c.2.2.1, last_seen := c.2.2.2 }

/-- Tracker states reachable from a freshly constructed tracker through the
mutating operations `update_running` and `mark_missing`. -/
inductive Reachable : ProcessRuntimeTracker → Prop
  | init (completed_max : Nat) : Reachable (ProcessRuntimeTracker.init completed_max)
  | observe {t : ProcessRuntimeTracker} (pid : Nat) (name : String)
      (create_time predicted now : ℚ) :
      Reachable t → Reachable (t.update_running pid name create_time predicted now).2
  | reconcile {t : ProcessRuntimeTracker} (oracle : Nat → Liveness)
      (obs : List Nat) (now : ℚ) :
      Reachable t → Reachable (t.mark_missing oracle obs now)

/-! Concrete fixtures used to instantiate the theorems at explicit inputs. -/

/-- A concrete running record for pid 5. -/
def recA : RuntimeRecord :=
  { pid := 5, name := "alpha", create_time := 100, predicted := 10,
    first_seen := 100, last_seen := 120 }

/-- A concrete running record for pid 7. -/
def recB : RuntimeRecord :=
  { pid := 7, name := "beta", create_time := 200, predicted := 3,
    first_seen := 200, last_seen := 220 }

/-- A concrete running record for pid 9. -/
def recC : RuntimeRecord :=
  { pid := 9, name := "gamma", create_time := 300, predicted := 7,
    first_seen := 300, last_seen := 320 }

/-- A tracker with one active record and default capacity. -/
def trackerA : ProcessRuntimeTracker :=
  { completed_max := 20, active := [(5, recA)], completed := [] }

/-- A tracker with three active records and capacity 2. -/
def trackerABC : ProcessRuntimeTracker :=
  { completed_max := 2, active := [(5, recA), (7, recB), (9, recC)], completed := [] }

/-- A completed record for pid 7 (older history entry). -/
def recDoneOld : RuntimeRecord :=
  { pid := 7, name := "old", create_time := 10, predicted := 1,
    first_seen := 10, last_seen := 20,
    actual_duration := some 30, completed_at := some 40 }

/-- A completed record for pid 7 (newer history entry). -/
def recDoneNew : RuntimeRecord :=
  { pid := 7, name := "new", create_time := 50, predicted := 2,
    first_seen := 50, last_seen := 60,
    actual_duration := some 70, completed_at := some 80 }

/-- A tracker whose history holds two completions for pid 7 and whose active
set holds pid 5. -/
def trackerShadow : ProcessRuntimeTracker :=
  { completed_max := 20, active := [(5, recA)],
    completed := [recDoneOld, recDoneNew] }

/-- An oracle reporting every pid as gone. -/
def oracleGone : Nat → Liveness := fun _ => .gone

/-- An oracle reporting every liveness probe as indeterminate (access denied). -/
def oracleIndet : Nat → Liveness := fun _ => .indeterminate

/-- An oracle reporting every pid as alive with the given creation time. -/
def oracleAlive (ct : ℚ) : Nat → Liveness := fun _ => .stillAlive ct

/-! ### Association-list lemmas (the `dict` model) -/

theorem alistGet_some_mem {m : ActiveMap} {k : Nat} {r : RuntimeRecord}
    (h : alistGet m k = some r) : (k, r) ∈ m := by
  induction m with
  | nil => simp [alistGet] at h
  | cons e rest ih =>
    obtain ⟨e1, e2⟩ := e
    simp only [alistGet] at h
    by_cases he : e1 = k
    · subst he
      simp only [if_pos rfl] at h
      injection h with h
      subst h
      exact List.mem_cons_self _ _
    · rw [if_neg he] at h
      exact List.mem_cons_of_mem _ (ih h)

theorem alistGet_eq_none_iff {m : ActiveMap} {k : Nat} :
    alistGet m k = none ↔ k ∉ alistKeys m := by
  induction m with
  | nil => simp [alistGet, alistKeys]
  | cons e rest ih =>
    by_cases he : e.1 = k
    · simp [alistGet, alistKeys, if_pos he, he]
    · simp [alistGet, alistKeys, if_neg he, ih, Ne.symm he]

theorem alistGet_isSome_iff {m : ActiveMap} {k : Nat} :
    (alistGet m k).isSome ↔ k ∈ alistKeys m := by
  cases h : alistGet m k with
  | none => simp [alistGet_eq_none_iff.mp h]
  | some r =>
    simp only [Option.isSome_some, true_iff]
    have := alistGet_some_mem h
    simpa [alistKeys] using List.mem_map_of_mem Prod.fst this

theorem alistGet_eq_of_mem_nodup {m : ActiveMap} {k : Nat} {x : RuntimeRecord}
    (hnd : (alistKeys m).Nodup) (hmem : (k, x) ∈ m) : alistGet m k = some x := by
  induction m with
  | nil => simp at hmem
  | cons e rest ih =>
    simp only [alistKeys, List.map_cons, List.nodup_cons] at hnd
    rcases List.mem_cons.mp hmem with h | h
    · rw [← h]
      simp [alistGet]
    · have hk : e.1 ≠ k := by
        intro hek
        exact hnd.1 (hek ▸ List.mem_map_of_mem Prod.fst h)
      rw [alistGet, if_neg hk]
      exact ih hnd.2 h

theorem alistGet_erase_self (m : ActiveMap) (k : Nat) :
    alistGet (alistErase m k) k = none := by
  rw [alistGet_eq_none_iff]
  intro hmem
  rcases List.mem_map.mp hmem with ⟨e, he, hek⟩
  rcases List.mem_filter.mp he with ⟨_, hne⟩
  simp [hek] at hne

theorem alistErase_cons_self {e : Nat × RuntimeRecord} {rest : ActiveMap} {k : Nat}
    (he : e.1 = k) : alistErase (e :: rest) k = alistErase rest k := by
  simp [alistErase, List.filter_cons, he]

theorem alistErase_cons_ne {e : Nat × RuntimeRecord} {rest : ActiveMap} {k : Nat}
    (he : ¬ e.1 = k) : alistErase (e :: rest) k = e :: alistErase rest k := by
  simp [alistErase, List.filter_cons, he]

theorem alistGet_erase_ne {m : ActiveMap} {k k' : Nat} (h : k' ≠ k) :
    alistGet (alistErase m k) k' = alistGet m k' := by
  induction m with
  | nil => rfl
  | cons e rest ih =>
    by_cases he : e.1 = k
    · have h1 : ¬ e.1 = k' := by rw [he]; exact fun hx => h hx.symm
      rw [alistErase_cons_self he, ih, alistGet, if_neg h1]
    · rw [alistErase_cons_ne he]
      by_cases he' : e.1 = k'
      · rw [alistGet, if_pos he', alistGet, if_pos he']
      · rw [alistGet, if_neg he', alistGet, if_neg he', ih]

theorem alistKeys_erase_sublist (m : ActiveMap) (k : Nat) :
    (alistKeys (alistErase m k)).Sublist (alistKeys m) :=
  (List.filter_sublist m).map Prod.fst

theorem alistKeys_erase_nodup {m : ActiveMap} (k : Nat)
    (hnd : (alistKeys m).Nodup) : (alistKeys (alistErase m k)).Nodup :=
  hnd.sublist (alistKeys_erase_sublist m k)

theorem alistGet_map_insert_self (m : ActiveMap) (k : Nat) (v : RuntimeRecord)
    (h : (alistGet m k).isSome) :
    alistGet (m.map (fun e => if e.1 = k then (k, v) else e)) k = some v := by
  induction m with
  | nil => simp [alistGet] at h
  | cons e rest ih =>
    by_cases he : e.1 = k
    · rw [List.map_cons, if_pos he, alistGet, if_pos rfl]
    · rw [alistGet, if_neg he] at h
      rw [List.map_cons, if_neg he, alistGet, if_neg he]
      exact ih h

theorem alistGet_map_insert_ne (m : ActiveMap) {k k' : Nat} (v : RuntimeRecord) (h : k' ≠ k) :
    alistGet (m.map (fun e => if e.1 = k then (k, v) else e)) k' = alistGet m k' := by
  induction m with
  | nil => rfl
  | cons e rest ih =>
    by_cases he : e.1 = k
    · have h1 : ¬ e.1 = k' := by rw [he]; exact fun hx => h hx.symm
      have h2 : ¬ k = k' := fun hx => h hx.symm
      rw [List.map_cons, if_pos he, alistGet, if_neg h2, alistGet, if_neg h1, ih]
    · rw [List.map_cons, if_neg he]
      by_cases he' : e.1 = k'
      · rw [alistGet, if_pos he', alistGet, if_pos he']
      · rw [alistGet, if_neg he', alistGet, if_neg he', ih]

theorem alistGet_append_single_self (m : ActiveMap) (k : Nat) (v : RuntimeRecord)
    (h : alistGet m k = none) : alistGet (m ++ [(k, v)]) k = some v := by
  induction m with
  | nil => simp [alistGet]
  | cons e rest ih =>
    rw [alistGet] at h
    by_cases he : e.1 = k
    · rw [if_pos he] at h
      simp at h
    · rw [if_neg he] at h
      rw [List.cons_append, alistGet, if_neg he]
      exact ih h

theorem alistGet_append_single_ne (m : ActiveMap) {k k' : Nat} (v : RuntimeRecord)
    (h : k' ≠ k) : alistGet (m ++ [(k, v)]) k' = alistGet m k' := by
  induction m with
  | nil =>
    have h2 : ¬ k = k' := fun hx => h hx.symm
    simp [alistGet, h2]
  | cons e rest ih =>
    by_cases he : e.1 = k'
    · rw [List.cons_append, alistGet, if_pos he, alistGet, if_pos he]
    · rw [List.cons_append, alistGet, if_neg he, alistGet, if_neg he, ih]

theorem alistGet_insert_self (m : ActiveMap) (k : Nat) (v : RuntimeRecord) :
    alistGet (alistInsert m k v) k = some v := by
  unfold alistInsert
  cases hg : alistGet m k with
  | none =>
    simp only [Option.isSome_none, Bool.false_eq_true, if_false]
    exact alistGet_append_single_self m k v hg
  | some r =>
    simp only [Option.isSome_some, if_true]
    exact alistGet_map_insert_self m k v (by rw [hg]; rfl)

theorem alistGet_insert_ne {m : ActiveMap} {k k' : Nat} (v : RuntimeRecord) (h : k' ≠ k) :
    alistGet (alistInsert m k v) k' = alistGet m k' := by
  unfold alistInsert
  cases hg : alistGet m k with
  | none =>
    simp only [Option.isSome_none, Bool.false_eq_true, if_false]
    exact alistGet_append_single_ne m v h
  | some r =>
    simp only [Option.isSome_some, if_true]
    exact alistGet_map_insert_ne m v h

theorem alistKeys_insert_of_isSome {m : ActiveMap} {k : Nat} (v : RuntimeRecord)
    (h : (alistGet m k).isSome) : alistKeys (alistInsert m k v) = alistKeys m := by
  rw [alistInsert, if_pos h]
  simp only [alistKeys, List.map_map]
  refine List.map_congr_left fun e _ => ?_
  by_cases he : e.1 = k <;> simp [he]

theorem alistKeys_insert_of_none {m : ActiveMap} {k : Nat} (v : RuntimeRecord)
    (h : alistGet m k = none) : alistKeys (alistInsert m k v) = alistKeys m ++ [k] := by
  rw [alistInsert, h]
  simp [alistKeys]

theorem alistKeys_insert_nodup {m : ActiveMap} {k : Nat} (v : RuntimeRecord)
    (hnd : (alistKeys m).Nodup) : (alistKeys (alistInsert m k v)).Nodup := by
  cases h : alistGet m k with
  | none =>
    rw [alistKeys_insert_of_none v h]
    refine List.Nodup.append hnd (List.nodup_singleton k) ?_
    intro a ha hb
    rcases List.mem_singleton.mp hb with rfl
    exact (alistGet_eq_none_iff.mp h) ha
  | some r =>
    rw [alistKeys_insert_of_isSome v (by rw [h]; rfl)]
    exact hnd

/-! ### Bounded-deque lemmas (the `deque(maxlen=N)` model) -/

theorem dequeAppend_of_lt {cap : Nat} {xs : List RuntimeRecord} (x : RuntimeRecord)
    (h : xs.length < cap) : dequeAppend cap xs x = xs ++ [x] := by
  unfold dequeAppend
  rw [Nat.sub_eq_zero_of_le h, List.drop_zero]

theorem dequeAppend_length (cap : Nat) (xs : List RuntimeRecord) (x : RuntimeRecord) :
    (dequeAppend cap xs x).length = min (xs.length + 1) cap := by
  unfold dequeAppend
  rw [List.length_drop]
  simp only [List.length_append, List.length_cons, List.length_nil]
  omega

theorem foldl_dequeAppend_of_le (cap : Nat) :
    ∀ (L : List RuntimeRecord) (acc : List RuntimeRecord), acc.length + L.length ≤ cap →
      L.foldl (dequeAppend cap) acc = acc ++ L
  | [], acc, _ => by simp
  | x :: L, acc, h => by
    simp only [List.length_cons] at h
    rw [List.foldl_cons, dequeAppend_of_lt x (by omega),
      foldl_dequeAppend_of_le cap L (acc ++ [x]) (by simp; omega)]
    simp

theorem foldl_dequeAppend_eq_drop (cap : Nat) :
    ∀ (L : List RuntimeRecord) (acc : List RuntimeRecord), acc.length ≤ cap →
      L.foldl (dequeAppend cap) acc = (acc ++ L).drop ((acc ++ L).length - cap)
  | [], acc, h => by simp [Nat.sub_eq_zero_of_le h]
  | x :: L, acc, h => by
    have hlen : (dequeAppend cap acc x).length ≤ cap := by
      rw [dequeAppend_length]
      exact Nat.min_le_right _ _
    rw [List.foldl_cons, foldl_dequeAppend_eq_drop cap L _ hlen]
    have h1 : dequeAppend cap acc x ++ L =
        ((acc ++ [x]) ++ L).drop (acc.length + 1 - cap) := by
      rw [List.drop_append_eq_append_drop]
      have h3 : acc.length + 1 - cap - (acc ++ [x]).length = 0 := by
        simp only [List.length_append, List.length_cons, List.length_nil]
        omega
      rw [h3, List.drop_zero]
      rfl
    rw [h1, List.drop_drop]
    have h2 : (acc ++ [x]) ++ L = acc ++ x :: L := by simp
    rw [h2]
    congr 1
    simp only [List.length_drop, List.length_append, List.length_cons]
    omega

theorem foldl_dequeAppend_nil_eq (cap : Nat) (L : List RuntimeRecord) :
    L.foldl (dequeAppend cap) [] = L.drop (L.length - cap) := by
  simpa using foldl_dequeAppend_eq_drop cap L [] (by simp)

theorem foldl_dequeAppend_shape (cap : Nat) :
    ∀ (L : List RuntimeRecord) (acc l : List RuntimeRecord),
      (∃ k new, l = acc.drop k ++ new) →
      ∃ k new, L.foldl (dequeAppend cap) l = acc.drop k ++ new
  | [], _, _, h => h
  | x :: L, acc, l, h => by
    rw [List.foldl_cons]
    refine foldl_dequeAppend_shape cap L acc _ ?_
    obtain ⟨k, new, rfl⟩ := h
    refine ⟨k + ((acc.drop k ++ new).length + 1 - cap),
      (new ++ [x]).drop ((acc.drop k ++ new).length + 1 - cap - (acc.drop k).length), ?_⟩
    unfold dequeAppend
    rw [List.append_assoc, List.drop_append_eq_append_drop, List.drop_drop]

/-! ### Characterization of `mark_missing` -/

theorem markStep_of_mem {oracle : Nat → Liveness} {obs : List Nat} {now : ℚ}
    {t : ProcessRuntimeTracker} {k : Nat} (h : k ∈ obs) :
    markStep oracle obs now t k = t := by
  simp [markStep, h]

theorem markStep_of_none {oracle : Nat → Liveness} {obs : List Nat} {now : ℚ}
    {t : ProcessRuntimeTracker} {k : Nat} (h : k ∉ obs)
    (hg : alistGet t.active k = none) : markStep oracle obs now t k = t := by
  simp [markStep, h, hg]

theorem markStep_of_keep {oracle : Nat → Liveness} {obs : List Nat} {now : ℚ}
    {t : ProcessRuntimeTracker} {k : Nat} {r : RuntimeRecord} (h : k ∉ obs)
    (hg : alistGet t.active k = some r) (hc : shouldClose oracle k r = false) :
    markStep oracle obs now t k = t := by
  simp [markStep, h, hg, hc]

theorem markStep_of_close {oracle : Nat → Liveness} {obs : List Nat} {now : ℚ}
    {t : ProcessRuntimeTracker} {k : Nat} {r : RuntimeRecord} (h : k ∉ obs)
    (hg : alistGet t.active k = some r) (hc : shouldClose oracle k r = true) :
    markStep oracle obs now t k =
      { t with
        active := alistErase t.active k
        completed := dequeAppend t.completed_max t.completed (closeRec r now) } := by
  simp [markStep, h, hg, hc]

theorem entry_snd_eq_of_nodup {m : ActiveMap} {e : Nat × RuntimeRecord} {k : Nat}
    {r : RuntimeRecord} (hnd : (alistKeys m).Nodup) (he : e ∈ m) (hek : e.1 = k)
    (hg : alistGet m k = some r) : e.2 = r := by
  obtain ⟨e1, e2⟩ := e
  cases hek
  have h1 := alistGet_eq_of_mem_nodup hnd he
  rw [hg] at h1
  injection h1 with h1
  exact h1.symm

theorem closedOf_congr {oracle : Nat → Liveness} {obs : List Nat} {now : ℚ}
    {m m' : ActiveMap} {ks : List Nat}
    (h : ∀ k ∈ ks, alistGet m k = alistGet m' k) :
    closedOf oracle obs now m ks = closedOf oracle obs now m' ks := by
  unfold closedOf
  refine List.filterMap_congr fun k hk => ?_
  rw [h k hk]

theorem foldl_markStep_eq (oracle : Nat → Liveness) (obs : List Nat) (now : ℚ) :
    ∀ (ks : List Nat) (t : ProcessRuntimeTracker), ks.Nodup → (alistKeys t.active).Nodup →
      ks.foldl (markStep oracle obs now) t =
        { t with
          active := t.active.filter fun e => !(decide (e.1 ∈ ks) && closeCond oracle obs e)
          completed := (closedOf oracle obs now t.active ks).foldl
            (dequeAppend t.completed_max) t.completed }
  | [], t, _, _ => by
    simp [closedOf]
  | k :: ks, t, hksnd, hnd => by
    rw [List.nodup_cons] at hksnd
    obtain ⟨hknotks, hks'⟩ := hksnd
    rw [List.foldl_cons]
    by_cases hko : k ∈ obs
    · rw [markStep_of_mem hko, foldl_markStep_eq oracle obs now ks t hks' hnd]
      have ha : (t.active.filter fun e => !(decide (e.1 ∈ ks) && closeCond oracle obs e)) =
          t.active.filter fun e => !(decide (e.1 ∈ k :: ks) && closeCond oracle obs e) := by
        refine List.filter_congr fun e _ => ?_
        by_cases hek : e.1 = k
        · have : closeCond oracle obs e = false := by
            simp [closeCond, hek, hko]
          simp [this]
        · simp [List.mem_cons, hek]
      have hc : closedOf oracle obs now t.active (k :: ks) =
          closedOf oracle obs now t.active ks := by
        unfold closedOf
        rw [List.filterMap_cons]
        cases hg : alistGet t.active k with
        | none => rfl
        | some r =>
          have : closeCond oracle obs (k, r) = false := by simp [closeCond, hko]
          simp [this]
      rw [ha, hc]
    · cases hg : alistGet t.active k with
      | none =>
        rw [markStep_of_none hko hg, foldl_markStep_eq oracle obs now ks t hks' hnd]
        have hknotin : k ∉ alistKeys t.active := alistGet_eq_none_iff.mp hg
        have ha : (t.active.filter fun e => !(decide (e.1 ∈ ks) && closeCond oracle obs e)) =
            t.active.filter fun e => !(decide (e.1 ∈ k :: ks) && closeCond oracle obs e) := by
          refine List.filter_congr fun e he => ?_
          have hek : e.1 ≠ k := by
            intro hx
            exact hknotin (hx ▸ List.mem_map_of_mem Prod.fst he)
          simp [List.mem_cons, hek]
        have hc : closedOf oracle obs now t.active (k :: ks) =
            closedOf oracle obs now t.active ks := by
          unfold closedOf
          rw [List.filterMap_cons, hg]
        rw [ha, hc]
      | some r =>
        by_cases hcl : shouldClose oracle k r = true
        · rw [markStep_of_close hko hg hcl]
          have hnd1 : (alistKeys (alistErase t.active k)).Nodup :=
            alistKeys_erase_nodup k hnd
          rw [foldl_markStep_eq oracle obs now ks _ hks' hnd1]
          have hcc : closeCond oracle obs (k, r) = true := by
            simp [closeCond, hko, hcl]
          have ha : ((alistErase t.active k).filter
                fun e => !(decide (e.1 ∈ ks) && closeCond oracle obs e)) =
              t.active.filter fun e => !(decide (e.1 ∈ k :: ks) && closeCond oracle obs e) := by
            unfold alistErase
            rw [List.filter_filter]
            refine List.filter_congr fun e he => ?_
            by_cases hek : e.1 = k
            · have her : e.2 = r := entry_snd_eq_of_nodup hnd he hek hg
              have : closeCond oracle obs e = true := by
                obtain ⟨e1, e2⟩ := e
                simp only at hek her
                rw [hek, her]
                exact hcc
              simp [this, hek]
            · simp [List.mem_cons, hek]
          have hcof : closedOf oracle obs now (alistErase t.active k) ks =
              closedOf oracle obs now t.active ks :=
            closedOf_congr fun k' hk' =>
              alistGet_erase_ne (fun hx => hknotks (hx ▸ hk'))
          have hc : closedOf oracle obs now t.active (k :: ks) =
              closeRec r now :: closedOf oracle obs now t.active ks := by
            unfold closedOf
            rw [List.filterMap_cons, hg]
            simp [hcc]
          rw [ha, hcof, hc, List.foldl_cons]
        · rw [markStep_of_keep hko hg (by simpa using hcl),
            foldl_markStep_eq oracle obs now ks t hks' hnd]
          have hcc : closeCond oracle obs (k, r) = false := by
            simp only [closeCond, Bool.and_eq_false_iff]
            right
            simpa using hcl
          have ha : (t.active.filter fun e => !(decide (e.1 ∈ ks) && closeCond oracle obs e)) =
              t.active.filter fun e => !(decide (e.1 ∈ k :: ks) && closeCond oracle obs e) := by
            refine List.filter_congr fun e he => ?_
            by_cases hek : e.1 = k
            · have her : e.2 = r := entry_snd_eq_of_nodup hnd he hek hg
              have : closeCond oracle obs e = false := by
                obtain ⟨e1, e2⟩ := e
                simp only at hek her
                rw [hek, her]
                exact hcc
              simp [this]
            · simp [List.mem_cons, hek]
          have hc : closedOf oracle obs now t.active (k :: ks) =
              closedOf oracle obs now t.active ks := by
            unfold closedOf
            rw [List.filterMap_cons, hg]
            simp [hcc]
          rw [ha, hc]

/-- One `mark_missing` call, in closed form: the active map keeps exactly the
entries the close decision spares, and the closed records are appended to the
bounded deque in active-map order. -/
theorem mark_missing_eq (t : ProcessRuntimeTracker) (oracle : Nat → Liveness)
    (obs : List Nat) (now : ℚ) (hnd : (alistKeys t.active).Nodup) :
    t.mark_missing oracle obs now =
      { t with
        active := t.active.filter fun e => !(closeCond oracle obs e)
        completed := (closedOf oracle obs now t.active (alistKeys t.active)).foldl
          (dequeAppend t.completed_max) t.completed } := by
  rw [mark_missing, foldl_markStep_eq oracle obs now (alistKeys t.active) t hnd hnd]
  have ha : (t.active.filter
        fun e => !(decide (e.1 ∈ alistKeys t.active) && closeCond oracle obs e)) =
      t.active.filter fun e => !(closeCond oracle obs e) := by
    refine List.filter_congr fun e he => ?_
    have : e.1 ∈ alistKeys t.active := List.mem_map_of_mem Prod.fst he
    simp [this]
  rw [ha]

/-! ### Further helper lemmas -/

theorem alistKeys_filter_nodup {m : ActiveMap} (p : Nat × RuntimeRecord → Bool)
    (hnd : (alistKeys m).Nodup) : (alistKeys (m.filter p)).Nodup :=
  hnd.sublist ((List.filter_sublist m).map Prod.fst)

theorem alistGet_filter_none {m : ActiveMap} {p : Nat × RuntimeRecord → Bool} {k : Nat}
    (h : ∀ e ∈ m, e.1 = k → p e = false) : alistGet (m.filter p) k = none := by
  rw [alistGet_eq_none_iff]
  intro hk
  rcases List.mem_map.mp hk with ⟨e, he, hek⟩
  rcases List.mem_filter.mp he with ⟨hem, hep⟩
  rw [h e hem hek] at hep
  cases hep

theorem alistGet_filter_of_true {m : ActiveMap} {p : Nat × RuntimeRecord → Bool}
    {k : Nat} {r : RuntimeRecord} (hnd : (alistKeys m).Nodup)
    (hg : alistGet m k = some r) (hp : p (k, r) = true) :
    alistGet (m.filter p) k = some r := by
  have hmem : (k, r) ∈ m.filter p :=
    List.mem_filter.mpr ⟨alistGet_some_mem hg, hp⟩
  exact alistGet_eq_of_mem_nodup (alistKeys_filter_nodup p hnd) hmem

theorem mem_alistInsert {m : ActiveMap} {k : Nat} {v : RuntimeRecord} {e : Nat × RuntimeRecord}
    (h : e ∈ alistInsert m k v) : e = (k, v) ∨ e ∈ m := by
  unfold alistInsert at h
  by_cases hs : (alistGet m k).isSome
  · rw [if_pos hs] at h
    rcases List.mem_map.mp h with ⟨e0, he0, heq⟩
    by_cases he : e0.1 = k
    · rw [if_pos he] at heq
      exact Or.inl heq.symm
    · rw [if_neg he] at heq
      exact Or.inr (heq ▸ he0)
  · rw [if_neg hs] at h
    rcases List.mem_append.mp h with h1 | h1
    · exact Or.inr h1
    · exact Or.inl (List.mem_singleton.mp h1)

theorem foldl_dequeAppend_mem (cap : Nat) :
    ∀ (L acc : List RuntimeRecord) (x : RuntimeRecord),
      x ∈ L.foldl (dequeAppend cap) acc → x ∈ acc ∨ x ∈ L
  | [], _, _, h => Or.inl h
  | y :: L, acc, x, h => by
    rcases foldl_dequeAppend_mem cap L (dequeAppend cap acc y) x h with h1 | h1
    · unfold dequeAppend at h1
      rcases List.mem_append.mp (List.drop_subset _ _ h1) with h2 | h2
      · exact Or.inl h2
      · exact Or.inr (List.mem_singleton.mp h2 ▸ List.mem_cons_self y L)
    · exact Or.inr (List.mem_cons_of_mem y h1)

theorem mem_closedOf {oracle : Nat → Liveness} {obs : List Nat} {now : ℚ}
    {m : ActiveMap} {ks : List Nat} {c : RuntimeRecord}
    (h : c ∈ closedOf oracle obs now m ks) :
    ∃ (p : Nat) (r : RuntimeRecord), alistGet m p = some r ∧ p ∉ obs ∧
      shouldClose oracle p r = true ∧ c = closeRec r now := by
  unfold closedOf at h
  rcases List.mem_filterMap.mp h with ⟨p, _, hp⟩
  cases hg : alistGet m p with
  | none => rw [hg] at hp; cases hp
  | some r =>
    rw [hg] at hp
    have hp2 : (if closeCond oracle obs (p, r) = true then some (closeRec r now)
        else none) = some c := hp
    by_cases hcc : closeCond oracle obs (p, r) = true
    · rw [if_pos hcc] at hp2
      injection hp2 with hp2
      rcases Bool.and_eq_true_iff.mp hcc with ⟨h1, h2⟩
      refine ⟨p, r, hg, ?_, h2, hp2.symm⟩
      simpa using h1
    · rw [if_neg hcc] at hp2
      cases hp2

theorem closedOf_mem_self {oracle : Nat → Liveness} {obs : List Nat} {now : ℚ}
    {m : ActiveMap} {k : Nat} {r : RuntimeRecord} (hg : alistGet m k = some r)
    (hobs : k ∉ obs) (hcl : shouldClose oracle k r = true) :
    closeRec r now ∈ closedOf oracle obs now m (alistKeys m) := by
  unfold closedOf
  refine List.mem_filterMap.mpr ⟨k, List.mem_map_of_mem Prod.fst (alistGet_some_mem hg), ?_⟩
  rw [hg]
  have hcc : closeCond oracle obs (k, r) = true := by
    simp [closeCond, hobs, hcl]
  show (if closeCond oracle obs (k, r) = true then some (closeRec r now)
    else none) = some (closeRec r now)
  rw [if_pos hcc]

theorem closedOf_length_le (oracle : Nat → Liveness) (obs : List Nat) (now : ℚ)
    (m : ActiveMap) (ks : List Nat) :
    (closedOf oracle obs now m ks).length ≤ ks.length :=
  List.length_filterMap_le _ _

theorem markStep_get_indet {oracle : Nat → Liveness} {obs : List Nat} {now : ℚ}
    {t : ProcessRuntimeTracker} {k pid : Nat}
    (hor : oracle pid = .indeterminate) :
    alistGet (markStep oracle obs now t k).active pid = alistGet t.active pid := by
  by_cases hko : k ∈ obs
  · rw [markStep_of_mem hko]
  · cases hg : alistGet t.active k with
    | none => rw [markStep_of_none hko hg]
    | some r =>
      by_cases hcl : shouldClose oracle k r = true
      · rw [markStep_of_close hko hg hcl]
        by_cases hk : k = pid
        · subst hk
          simp [shouldClose, hor] at hcl
        · exact alistGet_erase_ne fun hx => hk hx.symm
      · rw [markStep_of_keep hko hg (by simpa using hcl)]

theorem foldl_markStep_get_indet {oracle : Nat → Liveness} {obs : List Nat} {now : ℚ}
    {pid : Nat} (hor : oracle pid = .indeterminate) :
    ∀ (ks : List Nat) (t : ProcessRuntimeTracker),
      alistGet ((ks.foldl (markStep oracle obs now) t)).active pid = alistGet t.active pid
  | [], _ => rfl
  | k :: ks, t => by
    rw [List.foldl_cons, foldl_markStep_get_indet hor ks _, markStep_get_indet hor]

theorem mark_missing_get_indet {t : ProcessRuntimeTracker} {oracle : Nat → Liveness}
    {obs : List Nat} {now : ℚ} {pid : Nat} (hor : oracle pid = .indeterminate) :
    alistGet (t.mark_missing oracle obs now).active pid = alistGet t.active pid :=
  foldl_markStep_get_indet hor (alistKeys t.active) t

/-! ### Claims -/

/-- C1: during `mark_missing`, an active record whose pid is absent from the
observed set is closed exactly when the liveness probe reports `gone`, or
reports `stillAlive` with a creation time differing from the stored one by
more than the 1.0 s tolerance; on closing, the record gets
`completed_at = now` and `actual_duration = max(now - create_time, 0)`, leaves
the active set, and is appended to the history; otherwise it stays active
unchanged. (The capacity hypothesis keeps this call below the history bound so
the appended record is not itself evicted within the same call.) -/
theorem c1_missing_pid_closure (t : ProcessRuntimeTracker) (oracle : Nat → Liveness)
    (obs : List Nat) (now : ℚ) (pid : Nat) (r : RuntimeRecord)
    (hnd : (alistKeys t.active).Nodup)
    (hcap : t.completed.length + t.active.length ≤ t.completed_max)
    (hmem : alistGet t.active pid = some r) (hobs : pid ∉ obs) :
    (shouldClose oracle pid r = true ↔
      oracle pid = .gone ∨
        ∃ ct, oracle pid = .stillAlive ct ∧ |ct - r.create_time| > 1) ∧
    (shouldClose oracle pid r = true →
      alistGet (t.mark_missing oracle obs now).active pid = none ∧
      closeRec r now ∈ (t.mark_missing oracle obs now).completed) ∧
    ((closeRec r now).completed_at = some now ∧
      (closeRec r now).actual_duration = some (max (now - r.create_time) 0)) ∧
    (shouldClose oracle pid r = false →
      alistGet (t.mark_missing oracle obs now).active pid = some r) := by
  refine ⟨?_, ?_, ⟨rfl, rfl⟩, ?_⟩
  · unfold shouldClose
    cases ho : oracle pid with
    | stillAlive ct => simp
    | gone => simp
    | indeterminate => simp
  · intro hcl
    rw [mark_missing_eq t oracle obs now hnd]
    constructor
    · refine alistGet_filter_none fun e he hek => ?_
      have her : e.2 = r := entry_snd_eq_of_nodup hnd he hek hmem
      have hcc : closeCond oracle obs e = true := by
        obtain ⟨e1, e2⟩ := e
        simp only at hek her
        subst hek
        subst her
        simp [closeCond, hobs, hcl]
      simp [hcc]
    · have hlen : t.completed.length +
          (closedOf oracle obs now t.active (alistKeys t.active)).length ≤
            t.completed_max := by
        have h1 := closedOf_length_le oracle obs now t.active (alistKeys t.active)
        have h2 : (alistKeys t.active).length = t.active.length :=
          List.length_map _ _
        omega
      rw [foldl_dequeAppend_of_le _ _ _ hlen]
      exact List.mem_append.mpr (Or.inr (closedOf_mem_self hmem hobs hcl))
  · intro hcl
    rw [mark_missing_eq t oracle obs now hnd]
    refine alistGet_filter_of_true hnd hmem ?_
    simp [closeCond, hcl]

/-- Witness for C1: one active record, pid missing, gone-oracle, at time 150. -/
theorem c1_missing_pid_closure_witness :
    (shouldClose oracleGone 5 recA = true ↔
      oracleGone 5 = .gone ∨
        ∃ ct, oracleGone 5 = .stillAlive ct ∧ |ct - recA.create_time| > 1) ∧
    (shouldClose oracleGone 5 recA = true →
      alistGet (trackerA.mark_missing oracleGone [] 150).active 5 = none ∧
      closeRec recA 150 ∈ (trackerA.mark_missing oracleGone [] 150).completed) ∧
    ((closeRec recA 150).completed_at = some 150 ∧
      (closeRec recA 150).actual_duration = some (max (150 - recA.create_time) 0)) ∧
    (shouldClose oracleGone 5 recA = false →
      alistGet (trackerA.mark_missing oracleGone [] 150).active 5 = some recA) :=
  c1_missing_pid_closure trackerA oracleGone [] 150 5 recA (by decide) (by decide)
    (by decide) (by simp)

theorem c2_aux (pid : Nat) (r : RuntimeRecord) :
    ∀ (cs : List ((Nat → Liveness) × List Nat × ℚ)) (t : ProcessRuntimeTracker),
      alistGet t.active pid = some r → (∀ c ∈ cs, c.1 pid = .indeterminate) →
      alistGet (applyReconciles t cs).active pid = some r
  | [], _, hmem, _ => hmem
  | c :: cs, t, hmem, hor => by
    have h1 : alistGet (t.mark_missing c.1 c.2.1 c.2.2).active pid = some r := by
      rw [mark_missing_get_indet (hor c (List.mem_cons_self c cs))]
      exact hmem
    exact c2_aux pid r cs _ h1 fun x hx => hor x (List.mem_cons_of_mem c hx)

/-- C2: a running record whose pid is missing from the observed set is never
closed while the oracle keeps answering indeterminate: across any sequence of
reconcile cycles whose oracles report the pid indeterminate (and never observe
it), the record stays in the active set unchanged, with status running. -/
theorem c2_indeterminate_conservative (t : ProcessRuntimeTracker) (pid : Nat)
    (r : RuntimeRecord) (cs : List ((Nat → Liveness) × List Nat × ℚ))
    (hmem : alistGet t.active pid = some r) (hrun : r.actual_duration = none)
    (hor : ∀ c ∈ cs, c.1 pid = .indeterminate)
    (hobs : ∀ c ∈ cs, pid ∉ c.2.1) :
    alistGet (applyReconciles t cs).active pid = some r ∧
    r.status = "running" :=
  ⟨c2_aux pid r cs t hmem hor, by simp [RuntimeRecord.status, hrun]⟩

/-- Witness for C2: two indeterminate reconcile cycles leave the record alone. -/
theorem c2_indeterminate_conservative_witness :
    alistGet (applyReconciles trackerA
      [(oracleIndet, [], 130), (oracleIndet, [], 140)]).active 5 = some recA ∧
    recA.status = "running" :=
  c2_indeterminate_conservative trackerA 5 recA
    [(oracleIndet, [], 130), (oracleIndet, [], 140)]
    (by decide) (by decide) (by decide) (by decide)

theorem mem_alistInsert_key {m : ActiveMap} {k : Nat} {v : RuntimeRecord}
    {e : Nat × RuntimeRecord} (h : e ∈ alistInsert m k v) (hek : e.1 = k) :
    e = (k, v) := by
  unfold alistInsert at h
  by_cases hs : (alistGet m k).isSome
  · rw [if_pos hs] at h
    rcases List.mem_map.mp h with ⟨e0, he0, heq⟩
    by_cases he : e0.1 = k
    · rw [if_pos he] at heq
      exact heq.symm
    · rw [if_neg he] at heq
      rw [← heq] at hek
      exact absurd hek he
  · rw [if_neg hs] at h
    rcases List.mem_append.mp h with h1 | h1
    · exfalso
      have hk : k ∈ alistKeys m := hek ▸ List.mem_map_of_mem Prod.fst h1
      rw [Option.not_isSome_iff_eq_none] at hs
      exact (alistGet_eq_none_iff.mp hs) hk
    · exact List.mem_singleton.mp h1

/-- C3: an `update_running` call for a tracked pid whose creation time differs
from the stored one by more than the 1.0 s tolerance silently replaces the old
active record by a fresh one (`first_seen = last_seen = now`, the new creation
time, no completion fields); the pid keeps exactly one active entry, and the
history is untouched, so the discarded incarnation gets no completion. -/
theorem c3_pid_reuse_discards (t : ProcessRuntimeTracker) (pid : Nat) (name : String)
    (ct pred now : ℚ) (r : RuntimeRecord)
    (hnd : (alistKeys t.active).Nodup)
    (hmem : alistGet t.active pid = some r)
    (hdiff : |r.create_time - ct| > 1) :
    (t.update_running pid name ct pred now).1 =
      { pid := pid, name := name, create_time := ct, predicted := pred,
        first_seen := now, last_seen := now,
        actual_duration := none, completed_at := none } ∧
    alistGet (t.update_running pid name ct pred now).2.active pid =
      some (t.update_running pid name ct pred now).1 ∧
    (t.update_running pid name ct pred now).1 ≠ r ∧
    (∀ e ∈ (t.update_running pid name ct pred now).2.active,
        e.1 = pid → e.2 = (t.update_running pid name ct pred now).1) ∧
    (alistKeys (t.update_running pid name ct pred now).2.active).Nodup ∧
    (t.update_running pid name ct pred now).2.completed = t.completed := by
  have hu : t.update_running pid name ct pred now =
      t.replace_record pid name ct pred now := by
    simp only [update_running, hmem, if_pos hdiff]
  rw [hu]
  unfold replace_record
  refine ⟨rfl, alistGet_insert_self _ _ _, ?_, ?_, alistKeys_insert_nodup _ hnd, rfl⟩
  · intro h
    have hc : r.create_time = ct := by rw [← h]
    rw [hc, sub_self, abs_zero] at hdiff
    exact absurd hdiff (by norm_num)
  · intro e he hek
    have := mem_alistInsert_key he hek
    rw [this]

/-- Witness for C3: re-observing pid 5 with creation time 500 versus stored 100. -/
theorem c3_pid_reuse_discards_witness :
    (trackerA.update_running 5 "fresh" 500 2 600).1 =
      { pid := 5, name := "fresh", create_time := 500, predicted := 2,
        first_seen := 600, last_seen := 600,
        actual_duration := none, completed_at := none } ∧
    alistGet (trackerA.update_running 5 "fresh" 500 2 600).2.active 5 =
      some (trackerA.update_running 5 "fresh" 500 2 600).1 ∧
    (trackerA.update_running 5 "fresh" 500 2 600).1 ≠ recA ∧
    (∀ e ∈ (trackerA.update_running 5 "fresh" 500 2 600).2.active,
        e.1 = 5 → e.2 = (trackerA.update_running 5 "fresh" 500 2 600).1) ∧
    (alistKeys (trackerA.update_running 5 "fresh" 500 2 600).2.active).Nodup ∧
    (trackerA.update_running 5 "fresh" 500 2 600).2.completed = trackerA.completed :=
  c3_pid_reuse_discards trackerA 5 "fresh" 500 2 600 recA (by decide) (by decide)
    (by norm_num [recA])

theorem applyObserves_char (pid : Nat) :
    ∀ (cs : List (String × ℚ × ℚ × ℚ)) (t : ProcessRuntimeTracker) (r : RuntimeRecord),
      alistGet t.active pid = some r →
      (∀ c ∈ cs, |r.create_time - c.2.1| ≤ 1) →
      alistGet (applyObserves t pid cs).active pid = some (cs.foldl updRec r) ∧
      (applyObserves t pid cs).completed = t.completed ∧
      alistKeys (applyObserves t pid cs).active = alistKeys t.active
  | [], _, _, hmem, _ => ⟨hmem, rfl, rfl⟩
  | c :: cs, t, r, hmem, htol => by
    have hle : ¬ |r.create_time - c.2.1| > 1 :=
      not_lt.mpr (htol c (List.mem_cons_self c cs))
    have hstep : (t.update_running pid c.1 c.2.1 c.2.2.1 c.2.2.2).2 =
        { t with active := alistInsert t.active pid (updRec r c) } := by
      simp only [update_running, hmem, if_neg hle]
      rfl
    have hget : alistGet (alistInsert t.active pid (updRec r c)) pid =
        some (updRec r c) := alistGet_insert_self _ _ _
    have hkeys : alistKeys (alistInsert t.active pid (updRec r c)) = alistKeys t.active :=
      alistKeys_insert_of_isSome _ (by rw [hmem]; rfl)
    have ih := applyObserves_char pid cs
      { t with active := alistInsert t.active pid (updRec r c) } (updRec r c) hget
      (fun x hx => htol x (List.mem_cons_of_mem c hx))
    refine ⟨?_, ?_, ?_⟩
    · show alistGet (applyObserves
        (t.update_running pid c.1 c.2.1 c.2.2.1 c.2.2.2).2 pid cs).active pid =
        some ((c :: cs).foldl updRec r)
      rw [hstep]
      exact ih.1
    · show (applyObserves
        (t.update_running pid c.1 c.2.1 c.2.2.1 c.2.2.2).2 pid cs).completed = t.completed
      rw [hstep]
      exact ih.2.1
    · show alistKeys (applyObserves
        (t.update_running pid c.1 c.2.1 c.2.2.1 c.2.2.2).2 pid cs).active =
        alistKeys t.active
      rw [hstep, ih.2.2]
      exact hkeys

theorem foldl_updRec_fixed (r : RuntimeRecord) :
    ∀ (cs : List (String × ℚ × ℚ × ℚ)),
      (cs.foldl updRec r).create_time = r.create_time ∧
      (cs.foldl updRec r).first_seen = r.first_seen ∧
      (cs.foldl updRec r).actual_duration = r.actual_duration
  | [] => ⟨rfl, rfl, rfl⟩
  | c :: cs => foldl_updRec_fixed (updRec r c) cs

theorem foldl_updRec_take_last (r : RuntimeRecord) (cs : List (String × ℚ × ℚ × ℚ))
    (k : Nat) (hk : k < cs.length) :
    ((cs.take (k+1)).foldl updRec r).last_seen = (cs.get ⟨k, hk⟩).2.2.2 := by
  rw [List.take_succ, List.getElem?_eq_getElem hk, Option.toList_some,
    List.foldl_append]
  rfl

/-- C4: repeated `update_running` calls with the same pid and a creation time
within the 1.0 s tolerance of the stored one never create a second record for
the pid: after every prefix of the call sequence the active keys are unchanged
(so no entry was added or removed), the pid maps to the in-place-updated
record, `create_time` and `first_seen` never change, `last_seen` after the
k-th call is that call's clock reading, and with strictly increasing clock
readings `last_seen` strictly advances from each call to the next; the history
is untouched throughout. -/
theorem c4_identity_stability (t : ProcessRuntimeTracker) (pid : Nat)
    (r : RuntimeRecord) (cs : List (String × ℚ × ℚ × ℚ))
    (hmem : alistGet t.active pid = some r)
    (htol : ∀ c ∈ cs, |r.create_time - c.2.1| ≤ 1)
    (hmono : cs.Chain' fun a b => a.2.2.2 < b.2.2.2) :
    (∀ k, alistKeys (applyObserves t pid (cs.take k)).active = alistKeys t.active) ∧
    (∀ k, (applyObserves t pid (cs.take k)).completed = t.completed) ∧
    (∀ k, alistGet (applyObserves t pid (cs.take k)).active pid =
        some ((cs.take k).foldl updRec r)) ∧
    (∀ k, ((cs.take k).foldl updRec r).create_time = r.create_time ∧
        ((cs.take k).foldl updRec r).first_seen = r.first_seen) ∧
    (∀ k (hk : k < cs.length),
        ((cs.take (k+1)).foldl updRec r).last_seen = (cs.get ⟨k, hk⟩).2.2.2) ∧
    (∀ k, k + 1 < cs.length →
        ((cs.take (k+1)).foldl updRec r).last_seen <
          ((cs.take (k+2)).foldl updRec r).last_seen) := by
  have hchar : ∀ k, alistGet (applyObserves t pid (cs.take k)).active pid =
      some ((cs.take k).foldl updRec r) ∧
      (applyObserves t pid (cs.take k)).completed = t.completed ∧
      alistKeys (applyObserves t pid (cs.take k)).active = alistKeys t.active :=
    fun k => applyObserves_char pid (cs.take k) t r hmem
      (fun c hc => htol c (List.take_subset k cs hc))
  refine ⟨fun k => (hchar k).2.2, fun k => (hchar k).2.1, fun k => (hchar k).1,
    fun k => ⟨(foldl_updRec_fixed r (cs.take k)).1, (foldl_updRec_fixed r (cs.take k)).2.1⟩,
    fun k hk => foldl_updRec_take_last r cs k hk, ?_⟩
  intro k hk
  have hk1 : k < cs.length := by omega
  have hk2 : k + 1 < cs.length := hk
  rw [foldl_updRec_take_last r cs k hk1, foldl_updRec_take_last r cs (k+1) hk2]
  have := List.chain'_iff_get.mp hmono k (by omega)
  exact this

/-- Witness for C4: two in-tolerance observations of pid 5 at times 130 and 140. -/
theorem c4_identity_stability_witness :
    (∀ k, alistKeys (applyObserves trackerA 5
        ([("a1", 100, 4, 130), ("a2", 100.5, 6, 140)].take k)).active =
      alistKeys trackerA.active) ∧
    (∀ k, (applyObserves trackerA 5
        ([("a1", 100, 4, 130), ("a2", 100.5, 6, 140)].take k)).completed =
      trackerA.completed) ∧
    (∀ k, alistGet (applyObserves trackerA 5
        ([("a1", 100, 4, 130), ("a2", 100.5, 6, 140)].take k)).active 5 =
      some (([("a1", 100, 4, 130), ("a2", 100.5, 6, 140)].take k).foldl updRec recA)) ∧
    (∀ k, ((([("a1", 100, 4, 130), ("a2", 100.5, 6, 140)]).take k).foldl
          updRec recA).create_time = recA.create_time ∧
        ((([("a1", 100, 4, 130), ("a2", 100.5, 6, 140)]).take k).foldl
          updRec recA).first_seen = recA.first_seen) ∧
    (∀ k (hk : k < ([("a1", 100, 4, 130), ("a2", 100.5, 6, 140)] :
          List (String × ℚ × ℚ × ℚ)).length),
        ((([("a1", 100, 4, 130), ("a2", 100.5, 6, 140)]).take (k+1)).foldl
          updRec recA).last_seen =
        (([("a1", 100, 4, 130), ("a2", 100.5, 6, 140)] :
          List (String × ℚ × ℚ × ℚ)).get ⟨k, hk⟩).2.2.2) ∧
    (∀ k, k + 1 < ([("a1", 100, 4, 130), ("a2", 100.5, 6, 140)] :
          List (String × ℚ × ℚ × ℚ)).length →
        ((([("a1", 100, 4, 130), ("a2", 100.5, 6, 140)]).take (k+1)).foldl
          updRec recA).last_seen <
        ((([("a1", 100, 4, 130), ("a2", 100.5, 6, 140)]).take (k+2)).foldl
          updRec recA).last_seen) :=
  c4_identity_stability trackerA 5 recA [("a1", 100, 4, 130), ("a2", 100.5, 6, 140)]
    (by decide) (by intro c hc; fin_cases hc <;> norm_num [recA, abs_le])
    (by constructor <;> norm_num)

theorem update_running_fst_unset (t : ProcessRuntimeTracker) (pid : Nat) (name : String)
    (ct pred now : ℚ)
    (hact : ∀ e ∈ t.active, e.2.actual_duration = none ∧ e.2.completed_at = none) :
    (t.update_running pid name ct pred now).1.actual_duration = none ∧
    (t.update_running pid name ct pred now).1.completed_at = none := by
  unfold update_running replace_record
  cases hg : alistGet t.active pid with
  | none => exact ⟨rfl, rfl⟩
  | some record =>
    dsimp only
    split
    · exact ⟨rfl, rfl⟩
    · have h1 := hact (pid, record) (alistGet_some_mem hg)
      exact ⟨h1.1, h1.2⟩

theorem update_running_snd (t : ProcessRuntimeTracker) (pid : Nat) (name : String)
    (ct pred now : ℚ) :
    (t.update_running pid name ct pred now).2 =
      { t with active :=
          alistInsert t.active pid (t.update_running pid name ct pred now).1 } := by
  unfold update_running replace_record
  cases alistGet t.active pid with
  | none => rfl
  | some record =>
    dsimp only
    split
    · rfl
    · rfl

theorem foldl_dequeAppend_length_le (cap : Nat) :
    ∀ (L acc : List RuntimeRecord), acc.length ≤ cap →
      (L.foldl (dequeAppend cap) acc).length ≤ cap
  | [], _, h => h
  | x :: L, acc, h =>
    foldl_dequeAppend_length_le cap L (dequeAppend cap acc x)
      (by rw [dequeAppend_length]; omega)

theorem reachable_inv {t : ProcessRuntimeTracker} (h : Reachable t) :
    (alistKeys t.active).Nodup ∧
    (∀ e ∈ t.active, e.2.actual_duration = none ∧ e.2.completed_at = none) ∧
    (∀ r ∈ t.completed, r.actual_duration.isSome ∧ r.completed_at.isSome) ∧
    t.completed.length ≤ t.completed_max := by
  induction h with
  | init cap =>
    refine ⟨List.nodup_nil, ?_, ?_, Nat.zero_le cap⟩ <;> intro e he <;>
      simp [ProcessRuntimeTracker.init] at he
  | observe pid name ct pred now _ ih =>
    obtain ⟨hnd, hact, hcomp, hlen⟩ := ih
    rename_i t0 _
    rw [update_running_snd]
    refine ⟨alistKeys_insert_nodup _ hnd, ?_, hcomp, hlen⟩
    intro e he
    rcases mem_alistInsert he with rfl | hmem
    · exact update_running_fst_unset t0 pid name ct pred now hact
    · exact hact e hmem
  | reconcile oracle obs now _ ih =>
    obtain ⟨hnd, hact, hcomp, hlen⟩ := ih
    rename_i t0 _
    rw [mark_missing_eq t0 oracle obs now hnd]
    refine ⟨alistKeys_filter_nodup _ hnd, ?_, ?_,
      foldl_dequeAppend_length_le _ _ _ hlen⟩
    · intro e he
      exact hact e (List.mem_filter.mp he).1
    · intro r hr
      rcases foldl_dequeAppend_mem _ _ _ _ hr with h1 | h1
      · exact hcomp r h1
      · rcases mem_closedOf h1 with ⟨p, r0, _, _, _, rfl⟩
        exact ⟨rfl, rfl⟩

/-- C5: in every reachable tracker state, `actual_duration` and `completed_at`
are both unset on every active record and both set on every history record
(so they are unset or set together); each reconcile call leaves the history
equal to the capacity-capped suffix of the old history extended by exactly the
records closed in that call, so every retained history record reappears with
all its fields identical and records are only dropped from the old end and
appended at the new end; and a record whose `actual_duration` is set never
appears in the active set after a reconcile call — completion is terminal. -/
theorem c5_completed_terminal (t : ProcessRuntimeTracker) (h : Reachable t) :
    (∀ e ∈ t.active, e.2.actual_duration = none ∧ e.2.completed_at = none) ∧
    (∀ r ∈ t.completed, r.actual_duration.isSome ∧ r.completed_at.isSome) ∧
    (∀ (oracle : Nat → Liveness) (obs : List Nat) (now : ℚ),
        (t.mark_missing oracle obs now).completed =
          (t.completed ++ closedOf oracle obs now t.active (alistKeys t.active)).drop
            ((t.completed ++ closedOf oracle obs now t.active (alistKeys t.active)).length
              - t.completed_max) ∧
        (∀ c ∈ closedOf oracle obs now t.active (alistKeys t.active),
            ∃ (p : Nat) (r : RuntimeRecord), alistGet t.active p = some r ∧ p ∉ obs ∧
              shouldClose oracle p r = true ∧ c = closeRec r now)) ∧
    (∀ r : RuntimeRecord, r.actual_duration.isSome → ∀ (oracle : Nat → Liveness)
        (obs : List Nat) (now : ℚ),
        ∀ e ∈ (t.mark_missing oracle obs now).active, e.2 ≠ r) := by
  obtain ⟨hnd, hact, hcomp, hlen⟩ := reachable_inv h
  refine ⟨hact, hcomp, ?_, ?_⟩
  · intro oracle obs now
    constructor
    · rw [mark_missing_eq t oracle obs now hnd]
      exact foldl_dequeAppend_eq_drop _ _ _ hlen
    · exact fun c hc => mem_closedOf hc
  · intro r hr oracle obs now e he hne
    have hinv2 := reachable_inv (Reachable.reconcile oracle obs now h)
    have h2 := hinv2.2.1 e he
    rw [hne] at h2
    rw [h2.1] at hr
    simp at hr

/-- Witness for C5 at a reachable state with one active record. -/
theorem c5_completed_terminal_witness :
    (∀ e ∈ (((ProcessRuntimeTracker.init 20).update_running 5 "alpha" 100 10 100).2).active,
        e.2.actual_duration = none ∧ e.2.completed_at = none) ∧
    (∀ r ∈ (((ProcessRuntimeTracker.init 20).update_running 5 "alpha" 100 10 100).2).completed,
        r.actual_duration.isSome ∧ r.completed_at.isSome) ∧
    (∀ (oracle : Nat → Liveness) (obs : List Nat) (now : ℚ),
        ((((ProcessRuntimeTracker.init 20).update_running 5 "alpha" 100 10 100).2).mark_missing
            oracle obs now).completed =
          ((((ProcessRuntimeTracker.init 20).update_running 5 "alpha" 100 10 100).2).completed ++
            closedOf oracle obs now
              (((ProcessRuntimeTracker.init 20).update_running 5 "alpha" 100 10 100).2).active
              (alistKeys
                (((ProcessRuntimeTracker.init 20).update_running 5 "alpha" 100 10 100).2).active)).drop
            (((((ProcessRuntimeTracker.init 20).update_running 5 "alpha" 100 10 100).2).completed ++
              closedOf oracle obs now
                (((ProcessRuntimeTracker.init 20).update_running 5 "alpha" 100 10 100).2).active
                (alistKeys
                  (((ProcessRuntimeTracker.init 20).update_running 5 "alpha" 100 10 100).2).active)).length
              - (((ProcessRuntimeTracker.init 20).update_running 5 "alpha" 100 10 100).2).completed_max) ∧
        (∀ c ∈ closedOf oracle obs now
            (((ProcessRuntimeTracker.init 20).update_running 5 "alpha" 100 10 100).2).active
            (alistKeys
              (((ProcessRuntimeTracker.init 20).update_running 5 "alpha" 100 10 100).2).active),
            ∃ (p : Nat) (r : RuntimeRecord),
              alistGet
                (((ProcessRuntimeTracker.init 20).update_running 5 "alpha" 100 10 100).2).active
                p = some r ∧ p ∉ obs ∧
              shouldClose oracle p r = true ∧ c = closeRec r now)) ∧
    (∀ r : RuntimeRecord, r.actual_duration.isSome → ∀ (oracle : Nat → Liveness)
        (obs : List Nat) (now : ℚ),
        ∀ e ∈ ((((ProcessRuntimeTracker.init 20).update_running 5 "alpha" 100 10 100).2).mark_missing
            oracle obs now).active, e.2 ≠ r) :=
  c5_completed_terminal _
    (Reachable.observe 5 "alpha" 100 10 100 (Reachable.init 20))

/-- C6 counterexample: with capacity N = 2 and N + k = 3 completions (k = 1),
one reconcile call that closes three records leaves a history of length 2 —
the 2 most recent completions — so the history is not "exactly the k most
recent completions" as the claim states (that would be the single most recent
one). -/
theorem c6_counterexample :
    (trackerABC.mark_missing oracleGone [] 1000).completed =
      [closeRec recB 1000, closeRec recC 1000] ∧
    (trackerABC.mark_missing oracleGone [] 1000).completed.length = 2 ∧
    (trackerABC.mark_missing oracleGone [] 1000).completed ≠ [closeRec recC 1000] := by
  refine ⟨rfl, rfl, ?_⟩
  intro hcontra
  have hbc : (trackerABC.mark_missing oracleGone [] 1000).completed =
      [closeRec recB 1000, closeRec recC 1000] := rfl
  have hlen := congrArg List.length (hbc.symm.trans hcontra)
  simp at hlen

/-- C6 amended: after N + k completions (k > 0) with capacity N, the history
has length N and is exactly the N most recent completions in completion order;
the k oldest were evicted, oldest first (records enter at the new end and
leave from the old end only). Each `mark_missing` call realizes its history
as exactly such capped appends of the records it closes. -/
theorem c6_bounded_history (N k : Nat) (hk : 0 < k) (L : List RuntimeRecord)
    (hlen : L.length = N + k) :
    (L.foldl (dequeAppend N) []).length = N ∧
    L.foldl (dequeAppend N) [] = L.drop k ∧
    (∀ (t : ProcessRuntimeTracker) (oracle : Nat → Liveness) (obs : List Nat) (now : ℚ),
      (alistKeys t.active).Nodup →
      (t.mark_missing oracle obs now).completed =
        (closedOf oracle obs now t.active (alistKeys t.active)).foldl
          (dequeAppend t.completed_max) t.completed) := by
  refine ⟨?_, ?_, ?_⟩
  · rw [foldl_dequeAppend_nil_eq, List.length_drop, hlen]
    omega
  · rw [foldl_dequeAppend_nil_eq, hlen]
    congr 1
    omega
  · intro t oracle obs now hnd
    rw [mark_missing_eq t oracle obs now hnd]

/-- Witness for C6 (amended) at N = 2, k = 1 and three concrete records. -/
theorem c6_bounded_history_witness :
    (([recA, recB, recC].foldl (dequeAppend 2) []).length = 2) ∧
    ([recA, recB, recC].foldl (dequeAppend 2) [] = [recA, recB, recC].drop 1) ∧
    (∀ (t : ProcessRuntimeTracker) (oracle : Nat → Liveness) (obs : List Nat) (now : ℚ),
      (alistKeys t.active).Nodup →
      (t.mark_missing oracle obs now).completed =
        (closedOf oracle obs now t.active (alistKeys t.active)).foldl
          (dequeAppend t.completed_max) t.completed) :=
  c6_bounded_history 2 1 (by decide) [recA, recB, recC] (by decide)

/-- C7: reconcile is idempotent: with the oracle, the observed set and the
clock fixed, running `mark_missing` twice in a row gives the same state as
running it once — nothing is closed twice and no duplicate history entry is
appended. -/
theorem c7_reconcile_idempotent (t : ProcessRuntimeTracker) (oracle : Nat → Liveness)
    (obs : List Nat) (now : ℚ) (hnd : (alistKeys t.active).Nodup) :
    (t.mark_missing oracle obs now).mark_missing oracle obs now =
      t.mark_missing oracle obs now := by
  have h1 := mark_missing_eq t oracle obs now hnd
  set t1 := t.mark_missing oracle obs now with ht1
  have hactive1 : t1.active = t.active.filter fun e => !(closeCond oracle obs e) := by
    rw [h1]
  have hnd1 : (alistKeys t1.active).Nodup := by
    rw [hactive1]
    exact alistKeys_filter_nodup _ hnd
  rw [mark_missing_eq t1 oracle obs now hnd1]
  have hfilter : (t1.active.filter fun e => !(closeCond oracle obs e)) = t1.active := by
    rw [hactive1, List.filter_filter]
    exact List.filter_congr fun e _ => Bool.and_self _
  have hclosed : closedOf oracle obs now t1.active (alistKeys t1.active) = [] := by
    unfold closedOf
    rw [List.filterMap_eq_nil_iff]
    intro p hp
    cases hg : alistGet t1.active p with
    | none => rfl
    | some r =>
      have hmem := alistGet_some_mem hg
      rw [hactive1] at hmem
      have hp2 := (List.mem_filter.mp hmem).2
      have hcc : closeCond oracle obs (p, r) = false := by
        cases hcc2 : closeCond oracle obs (p, r)
        · rfl
        · rw [hcc2] at hp2
          cases hp2
      show (if closeCond oracle obs (p, r) = true then some (closeRec r now)
        else none) = none
      simp [hcc]
  rw [hfilter, hclosed]
  rfl

/-- Witness for C7 with a gone-oracle over one active record. -/
theorem c7_reconcile_idempotent_witness :
    (trackerA.mark_missing oracleGone [] 150).mark_missing oracleGone [] 150 =
      trackerA.mark_missing oracleGone [] 150 :=
  c7_reconcile_idempotent trackerA oracleGone [] 150 (by decide)

/-- C8: `mark_missing` has a frame property: every active record whose pid is
in the observed set is left in the active map unchanged; the result does not
depend on the oracle's answers for observed pids (the oracle is not consulted
for them); the capacity is untouched; and the history changes only by the
capped appends of the records closed in this call — nothing outside the
active map and the history is mutated. -/
theorem c8_frame (t : ProcessRuntimeTracker) (oracle : Nat → Liveness)
    (obs : List Nat) (now : ℚ) (hnd : (alistKeys t.active).Nodup) :
    (∀ (pid : Nat) (r : RuntimeRecord), pid ∈ obs → alistGet t.active pid = some r →
        alistGet (t.mark_missing oracle obs now).active pid = some r) ∧
    (∀ oracle2 : Nat → Liveness, (∀ p, p ∉ obs → oracle2 p = oracle p) →
        t.mark_missing oracle2 obs now = t.mark_missing oracle obs now) ∧
    (t.mark_missing oracle obs now).completed_max = t.completed_max ∧
    (∃ closedL : List RuntimeRecord,
        (∀ c ∈ closedL, ∃ (p : Nat) (r : RuntimeRecord), alistGet t.active p = some r ∧
            p ∉ obs ∧ shouldClose oracle p r = true ∧ c = closeRec r now) ∧
        (t.mark_missing oracle obs now).completed =
          closedL.foldl (dequeAppend t.completed_max) t.completed) := by
  refine ⟨?_, ?_, ?_, ?_⟩
  · intro pid r hpid hmem
    rw [mark_missing_eq t oracle obs now hnd]
    refine alistGet_filter_of_true hnd hmem ?_
    simp [closeCond, hpid]
  · intro oracle2 hagree
    have hcc : ∀ e : Nat × RuntimeRecord,
        closeCond oracle2 obs e = closeCond oracle obs e := by
      intro e
      by_cases hmemo : e.1 ∈ obs
      · simp [closeCond, hmemo]
      · simp only [closeCond, shouldClose, hagree e.1 hmemo]
    have hco : closedOf oracle2 obs now t.active (alistKeys t.active) =
        closedOf oracle obs now t.active (alistKeys t.active) := by
      unfold closedOf
      refine List.filterMap_congr fun p _ => ?_
      cases hg : alistGet t.active p with
      | none => rfl
      | some r =>
        show (if closeCond oracle2 obs (p, r) = true then some (closeRec r now)
            else none) =
          (if closeCond oracle obs (p, r) = true then some (closeRec r now) else none)
        rw [hcc]
    rw [mark_missing_eq t oracle obs now hnd, mark_missing_eq t oracle2 obs now hnd]
    have hfl : (t.active.filter fun e => !(closeCond oracle2 obs e)) =
        t.active.filter fun e => !(closeCond oracle obs e) :=
      List.filter_congr fun e _ => by rw [hcc]
    rw [hfl, hco]
  · rw [mark_missing_eq t oracle obs now hnd]
  · refine ⟨closedOf oracle obs now t.active (alistKeys t.active),
      fun c hc => mem_closedOf hc, ?_⟩
    rw [mark_missing_eq t oracle obs now hnd]

/-- Witness for C8 with pid 5 observed and a gone-oracle. -/
theorem c8_frame_witness :
    (∀ (pid : Nat) (r : RuntimeRecord), pid ∈ [5] → alistGet trackerA.active pid = some r →
        alistGet (trackerA.mark_missing oracleGone [5] 150).active pid = some r) ∧
    (∀ oracle2 : Nat → Liveness, (∀ p, p ∉ [5] → oracle2 p = oracleGone p) →
        trackerA.mark_missing oracle2 [5] 150 = trackerA.mark_missing oracleGone [5] 150) ∧
    (trackerA.mark_missing oracleGone [5] 150).completed_max = trackerA.completed_max ∧
    (∃ closedL : List RuntimeRecord,
        (∀ c ∈ closedL, ∃ (p : Nat) (r : RuntimeRecord),
            alistGet trackerA.active p = some r ∧
            p ∉ [5] ∧ shouldClose oracleGone p r = true ∧ c = closeRec r 150) ∧
        (trackerA.mark_missing oracleGone [5] 150).completed =
          closedL.foldl (dequeAppend trackerA.completed_max) trackerA.completed) :=
  c8_frame trackerA oracleGone [5] 150 (by decide)

/-- C9: for a pid with no active record and no history record,
`current_elapsed` returns none and `status_for` returns "unknown"; and
`status_for` always returns one of exactly running / completed / unknown.
Both lookups are pure functions of the state: they cannot raise and mutate
nothing. -/
theorem c9_unknown_pid (t : ProcessRuntimeTracker) (pid : Nat) (now : ℚ)
    (hact : ∀ e ∈ t.active, e.1 ≠ pid) (hhist : ∀ r ∈ t.completed, r.pid ≠ pid) :
    t.current_elapsed pid now = none ∧
    t.status_for pid = "unknown" ∧
    (∀ (t2 : ProcessRuntimeTracker) (q : Nat),
        t2.status_for q = "running" ∨ t2.status_for q = "completed" ∨
          t2.status_for q = "unknown") := by
  have hg : alistGet t.active pid = none := by
    rw [alistGet_eq_none_iff]
    intro hk
    rcases List.mem_map.mp hk with ⟨e, he, hek⟩
    exact hact e he hek
  have hf : t.completed.find? (fun record => record.pid == pid) = none :=
    List.find?_eq_none.mpr fun r hr => by simpa using hhist r hr
  refine ⟨?_, ?_, ?_⟩
  · unfold current_elapsed
    rw [hg, hf]
  · unfold status_for
    rw [hg, hf]
  · intro t2 q
    unfold status_for
    cases alistGet t2.active q with
    | some r =>
      by_cases hs : r.actual_duration.isSome
      · right; left; simp [RuntimeRecord.status, hs]
      · left; simp [RuntimeRecord.status, hs]
    | none =>
      cases (t2.completed.find? fun record => record.pid == q) with
      | some r =>
        by_cases hs : r.actual_duration.isSome
        · right; left; simp [RuntimeRecord.status, hs]
        · left; simp [RuntimeRecord.status, hs]
      | none => right; right; rfl

/-- Witness for C9 at an untracked pid 99. -/
theorem c9_unknown_pid_witness :
    trackerA.current_elapsed 99 150 = none ∧
    trackerA.status_for 99 = "unknown" ∧
    (∀ (t2 : ProcessRuntimeTracker) (q : Nat),
        t2.status_for q = "running" ∨ t2.status_for q = "completed" ∨
          t2.status_for q = "unknown") :=
  c9_unknown_pid trackerA 99 150 (by decide) (by decide)

/-- C10: both lookups consult the active map first, so an active record
shadows any history entries for the same pid (an active re-observed
incarnation of a completed pid reports running); and when the pid is not
active, both lookups return the first matching history entry in insertion
order — the oldest completion — even when newer matches exist further right. -/
theorem c10_lookup_order (t : ProcessRuntimeTracker) (pid : Nat) (now : ℚ) :
    (∀ r : RuntimeRecord, alistGet t.active pid = some r →
        t.current_elapsed pid now = some (r.elapsed now) ∧
        t.status_for pid = r.status ∧
        (r.actual_duration = none → t.status_for pid = "running")) ∧
    (∀ (pre post : List RuntimeRecord) (r : RuntimeRecord),
        alistGet t.active pid = none → t.completed = pre ++ r :: post →
        (∀ x ∈ pre, x.pid ≠ pid) → r.pid = pid →
        t.current_elapsed pid now = r.actual_duration ∧
        t.status_for pid = r.status) := by
  constructor
  · intro r hg
    refine ⟨?_, ?_, ?_⟩
    · unfold current_elapsed
      rw [hg]
    · unfold status_for
      rw [hg]
    · intro hrun
      unfold status_for
      rw [hg]
      simp [RuntimeRecord.status, hrun]
  · intro pre post r hg hcomp hpre hr
    have hf : t.completed.find? (fun record => record.pid == pid) = some r := by
      rw [hcomp, List.find?_append]
      have h1 : pre.find? (fun record => record.pid == pid) = none :=
        List.find?_eq_none.mpr fun x hx => by simpa using hpre x hx
      rw [h1]
      simp [List.find?_cons, hr]
    constructor
    · unfold current_elapsed
      rw [hg, hf]
    · unfold status_for
      rw [hg, hf]

/-- Witness for C10: the active pid 5 shadows; pid 7 resolves to the oldest of
two history entries. -/
theorem c10_lookup_order_witness :
    (trackerShadow.current_elapsed 5 900 = some (recA.elapsed 900) ∧
      trackerShadow.status_for 5 = recA.status ∧
      (recA.actual_duration = none → trackerShadow.status_for 5 = "running")) ∧
    (trackerShadow.current_elapsed 7 900 = recDoneOld.actual_duration ∧
      trackerShadow.status_for 7 = recDoneOld.status) :=
  ⟨(c10_lookup_order trackerShadow 5 900).1 recA rfl,
    (c10_lookup_order trackerShadow 7 900).2 [] [recDoneNew] recDoneOld rfl rfl
      (by simp) rfl⟩
